import Mathlib

/-!
Verification of the Guild Bank bot's unstructured-input extraction and
canonicalization core: quality normalization and the lenient / strict text
grammars (src/Bot/bot/utils/parsing.py), the preview renderer
(src/Bot/bot/utils/formatting.py), the OCR word-stream segmenter and the
HSV quality classifier (src/Bot/bot/services/ocr_service.py), and the
OCR retry pipeline (src/Bot/bot/cogs/ocr_listener.py).

Python strings are modeled as lists of characters.  The string-processing
primitives the source uses (strip, lower, title, split, and the concrete
regular expressions, with Python's backtracking semantics for the one
pattern where it matters) are defined explicitly below.  ASCII semantics
are used for character classes and case mapping; this agrees with Python
on every character the source distinguishes (the two non-ASCII characters
appearing in the data paths, the multiplication sign and the quality
emoji, are neither alphanumeric nor whitespace in Python, as here).
Python integers are unbounded, so amounts are modeled as Int.

Notes on regex semantics used by parsing.py:
parse_user_lines and parse_audit_lines always run their anchored pattern
on a string that was first stripped of surrounding whitespace, so the
pattern's final anchor coincides with end-of-string (Python's anchor
would otherwise also accept a position before a final newline), and the
dot character class excludes the newline character, which the matcher
below enforces.
-/

namespace GuildBank

abbrev PyStr := List Char

/-- Shorthand turning a Lean string literal into the character-list model. -/
def s (x : String) : List Char := x.data

/-- Python whitespace (str.strip, str.split, regex class backslash-s),
restricted to the ASCII whitespace characters. -/
def pyIsSpace (c : Char) : Bool :=
  c = ' ' ∨ c = '\t' ∨ c = '\n' ∨ c = '\r' ∨ c = '\x0b' ∨ c = '\x0c'

/-- Python str.isdigit / regex class backslash-d on ASCII. -/
def pyIsDigit (c : Char) : Bool := c.isDigit

/-- Python regex word class (ASCII): letters, digits, underscore. -/
def pyIsWord (c : Char) : Bool := c.isAlphanum ∨ c = '_'

/-- A character that is not a regex word character (the complement used
by the leading-trim substitutions). -/
def notWordChar (c : Char) : Bool := ¬ pyIsWord c

/-- Nonempty all-digits string: Python str.isdigit(). -/
def pyIsDigitStr (t : PyStr) : Bool := ¬ t = [] ∧ t.all pyIsDigit

/-- Python str.lower restricted to ASCII case mapping. -/
def pyLowerStr (t : PyStr) : PyStr := t.map Char.toLower

/-- Drop from the right while a predicate holds. -/
def dropRightWhile (p : Char → Bool) (t : PyStr) : PyStr :=
  (t.reverse.dropWhile p).reverse

/-- Python str.strip() (whitespace both ends). -/
def pyStrip (t : PyStr) : PyStr :=
  dropRightWhile pyIsSpace (t.dropWhile pyIsSpace)

/-- Python str.strip(chars): drop members of a set from both ends. -/
def pyStripSet (set : List Char) (t : PyStr) : PyStr :=
  dropRightWhile (fun c => c ∈ set) (t.dropWhile (fun c => c ∈ set))

/-- Python str.rstrip(chars). -/
def pyRStripSet (set : List Char) (t : PyStr) : PyStr :=
  dropRightWhile (fun c => c ∈ set) t

/-- Python str.title() for ASCII letters: a letter following a non-letter
is uppercased, a letter following a letter is lowercased, everything
else passes through. -/
def pyTitleAux : Bool → List Char → List Char
  | _, [] => []
  | prevAlpha, c :: cs =>
    if c.isAlpha then
      (if prevAlpha then c.toLower else c.toUpper) :: pyTitleAux true cs
    else
      c :: pyTitleAux false cs

/-- Python str.title(). -/
def pyTitleStr (t : PyStr) : PyStr := pyTitleAux false t

/-- Split on single separator characters, keeping empty parts: the
semantics of re.split with a one-character class and of str.split(sep). -/
def splitOnP (p : Char → Bool) : List Char → List (List Char)
  | [] => [[]]
  | c :: cs =>
    if p c then [] :: splitOnP p cs
    else
      match splitOnP p cs with
      | [] => [[c]]
      | h :: t => (c :: h) :: t

/-- The item-delimiter split of parse_user_lines: re.split on the class
comma / plus / semicolon. -/
def splitDelims (t : PyStr) : List (List Char) :=
  splitOnP (fun c => c = ',' ∨ c = '+' ∨ c = ';') t

/-- Python str.split() with no argument: whitespace runs, no empties. -/
def pySplitWs (t : PyStr) : List (List Char) :=
  (splitOnP pyIsSpace t).filter (fun p => ¬ p = [])

mutual
/-- Helper for re.split on a whitespace-run pattern: inside a token,
with the accumulator reversed. -/
def reSplitWsTok (acc : List Char) : List Char → List (List Char)
  | [] => [acc.reverse]
  | c :: cs =>
    if pyIsSpace c then acc.reverse :: reSplitWsSep cs
    else reSplitWsTok (c :: acc) cs

/-- Helper for re.split on a whitespace-run pattern: inside a separator
run. -/
def reSplitWsSep : List Char → List (List Char)
  | [] => [[]]
  | c :: cs =>
    if pyIsSpace c then reSplitWsSep cs
    else reSplitWsTok [c] cs
end

/-- Python re.split on one-or-more-whitespace: splits at maximal
whitespace runs, keeping an empty boundary part at either end. -/
def reSplitWs (t : PyStr) : List (List Char) := reSplitWsTok [] t

/-- Value of a digit string, as int() computes it on an all-digit string. -/
def natOfDigits (ds : PyStr) : Nat :=
  ds.foldl (fun a c => 10 * a + (c.toNat - 48)) 0

/-- The character of a single decimal digit. -/
def digitChar (d : Nat) : Char := Char.ofNat (48 + d)

/-- Decimal rendering of a natural number, with structural fuel
(the fuel argument only needs to exceed the number). -/
def natToDigitsAux : Nat → Nat → List Char
  | 0, _ => []
  | fuel + 1, n =>
    if n < 10 then [digitChar n]
    else natToDigitsAux fuel (n / 10) ++ [digitChar (n % 10)]

/-- Decimal rendering of a natural number (Python str of a nonnegative int). -/
def natToDigits (n : Nat) : List Char := natToDigitsAux (n + 1) n

/-- Python str() of an int. -/
def intToStr (z : Int) : PyStr :=
  if z < 0 then '-' :: natToDigits z.natAbs else natToDigits z.toNat

/-- Canonical item tuple (item name, quality, amount), parsing.py line 25. -/
abbrev ItemT := PyStr × PyStr × Int

/-- QUALITY_SHORTCUTS of formatting.py (lines 34-41), as the lookup the
parsers perform on a single character key. -/
def QUALITY_SHORTCUTS : Char → Option PyStr
  | 'c' => some (s ("Common"))
  | 'u' => some (s ("Uncommon"))
  | 'r' => some (s ("Rare"))
  | 'h' => some (s ("Heroic"))
  | 'e' => some (s ("Epic"))
  | 'l' => some (s ("Legendary"))
  | _ => none

/-- The six canonical tier names, in their fixed order. -/
def sixTiers : List PyStr :=
  [s ("Common"), s ("Uncommon"), s ("Rare"), s ("Heroic"), s ("Epic"), s ("Legendary")]

/-- The six canonical tier names, lowercased, as the literal list the
parsers compare against. -/
def sixTiersLower : List PyStr :=
  [s ("common"), s ("uncommon"), s ("rare"), s ("heroic"), s ("epic"), s ("legendary")]

/-- parse_quality of parsing.py (lines 28-48): strip and lowercase the
token; empty defaults to Common; a token whose first character is a
shortcut key maps through the table; anything else is title-cased. -/
def parse_quality (token : PyStr) : PyStr :=
  match pyLowerStr (pyStrip token) with
  | [] => s ("Common")
  | c :: rest =>
    match QUALITY_SHORTCUTS c with
    | some t => t
    | none => pyTitleStr (c :: rest)

/-!
The anchored pattern of parsing.py lines 81-85 and 164-169:
digits, optional whitespace, an x (or the multiplication sign; the
IGNORECASE flag also admits an uppercase X), optional whitespace, a lazy
nonempty group, optional whitespace, and a parenthesized final group at
the end of the string.  The matcher below reproduces the Python engine's
preference order: the digit run and the whitespace runs are consumed
greedily with backtracking (only the whitespace run before the lazy name
group can actually backtrack), the name group grows lazily, and the dot
excludes newline.  The final parenthesized group is determined uniquely
by the terminal anchor; the two grammars differ only in the check it
performs (any nonempty body, versus the six tier names case-insensitively),
so it is a parameter.
-/

/-- Tail matcher for a parenthesized lazy group at end-of-string, as in
the lenient grammar: the remainder must be an opening parenthesis, a
nonempty newline-free body, and a final closing parenthesis. -/
def parenTailAny : List Char → Option (List Char)
  | [] => none
  | c :: rest =>
    if c = '(' then
      if rest.getLast? = some ')' then
        let body := rest.dropLast
        if ¬ body = [] ∧ ¬ '\n' ∈ body then some body else none
      else none
    else none

/-- Tail matcher for the audit grammar: the parenthesized body must be
one of the six canonical tier names, case-insensitively. -/
def parenTailTier : List Char → Option (List Char)
  | [] => none
  | c :: rest =>
    if c = '(' then
      if rest.getLast? = some ')' then
        let body := rest.dropLast
        if pyLowerStr body ∈ sixTiersLower then some body else none
      else none
    else none

/-- Lazy growth of the name group: after each appended character (the dot
cannot take a newline), greedily skip whitespace and try the tail
matcher; the first success wins, exactly the engine's preference order. -/
def findG2 (tailf : List Char → Option (List Char)) (acc : List Char) :
    List Char → Option (List Char × List Char)
  | [] => none
  | c :: rest =>
    if c = '\n' then none
    else
      match tailf (rest.dropWhile pyIsSpace) with
      | some g3 => some (acc ++ [c], g3)
      | none => findG2 tailf (acc ++ [c]) rest

/-- Backtracking over the greedy whitespace run that precedes the lazy
name group: try the longest whitespace prefix first, then shorter ones. -/
def matchTailGo (tailf : List Char → Option (List Char)) (r : List Char) :
    Nat → Option (List Char × List Char)
  | 0 => findG2 tailf [] r
  | j + 1 =>
    match findG2 tailf [] (r.drop (j + 1)) with
    | some x => some x
    | none => matchTailGo tailf r j

/-- Match the whitespace-then-name-then-parenthesized-tail part of the
strict pattern against the remainder after the x separator. -/
def matchTailFrom (tailf : List Char → Option (List Char)) (r : List Char) :
    Option (List Char × List Char) :=
  matchTailGo tailf r (r.takeWhile pyIsSpace).length

/-- The full anchored strict-format pattern, returning the three groups
(digit run, name, parenthesized body) exactly when Python's re.match
succeeds. -/
def matchStrictGen (tailf : List Char → Option (List Char)) (cs : List Char) :
    Option (List Char × List Char × List Char) :=
  let g1 := cs.takeWhile pyIsDigit
  if g1 = [] then none
  else
    match (cs.dropWhile pyIsDigit).dropWhile pyIsSpace with
    | [] => none
    | c :: r2 =>
      if c = 'x' ∨ c = 'X' ∨ c = '×' then
        match matchTailFrom tailf r2 with
        | some (g2, g3) => some (g1, g2, g3)
        | none => none
      else none

/-- The last-token quality detection of parse_user_lines (lines 110-130):
the lowercased last token is popped as the quality when it is nonempty
and its first character is a shortcut key, or it is one of the six full
tier names; otherwise quality defaults to Common and the token stays. -/
def fallbackQualitySplit (rest : List PyStr) : PyStr × List PyStr :=
  match rest.getLast? with
  | none => (s ("Common"), rest)
  | some lastT =>
    let qc := pyLowerStr lastT
    let pop : Bool :=
      match qc with
      | [] => false
      | c :: _ => (QUALITY_SHORTCUTS c).isSome ∨ qc ∈ sixTiersLower
    if pop then (parse_quality qc, rest.dropLast) else (s ("Common"), rest)

/-- The final name/quality step of the lenient fallback
(parse_user_lines lines 110-134) on the tokens remaining after amount
detection: the last token may be popped as the quality, and the rest,
joined, stripped and title-cased, must form a nonempty name. -/
def parseFallbackRest (amount : Int) : List PyStr → List ItemT
  | [] => []
  | r0 :: rs =>
    let qi := fallbackQualitySplit (r0 :: rs)
    let item := pyTitleStr (pyStrip (List.intercalate [' '] qi.2))
    if item = [] then [] else [(item, qi.1, amount)]

/-- Amount detection of the lenient fallback (lines 99-105): an
all-digits first token is consumed as the explicit amount, otherwise the
amount defaults to 1 and the token stays. -/
def parseFallbackTokens : List PyStr → List ItemT
  | [] => []
  | t0 :: rest0 =>
    if pyIsDigitStr t0 then parseFallbackRest (natOfDigits t0 : Int) rest0
    else parseFallbackRest 1 (t0 :: rest0)

/-- Dispatch on the strict-pattern result for one lenient segment: on a
match the record is emitted directly (lines 86-93, with the quality
group stripped of non-word characters and normalized); otherwise the
token-splitting fallback runs (lines 95-134). -/
def parseSegMatch : Option (List Char × List Char × List Char) → PyStr → List ItemT
  | some (g1, g2, g3), _ =>
    [(pyTitleStr (pyStrip g2), parse_quality (g3.filter pyIsWord),
      (natOfDigits g1 : Int))]
  | none, segment => parseFallbackTokens (pySplitWs segment)

/-- One comma-separated segment of the lenient grammar
(parse_user_lines, lines 72-134): strip, drop leading non-word
characters, try the strict pattern, otherwise the token-splitting
fallback. -/
def parseSegment (part : PyStr) : List ItemT :=
  let seg0 := pyStrip part
  if seg0 = [] then []
  else
    let segment := seg0.dropWhile notWordChar
    parseSegMatch (matchStrictGen parenTailAny segment) segment

/-- All segments of one line of the lenient grammar. -/
def parseSegments : List PyStr → List ItemT
  | [] => []
  | p :: ps => parseSegment p ++ parseSegments ps

/-- One line of the lenient grammar: split the stripped line at
comma / plus / semicolon and parse each segment. -/
def parseLineU (line : PyStr) : List ItemT :=
  parseSegments (splitDelims (pyStrip line))

/-- parse_user_lines of parsing.py (lines 51-136). -/
def parse_user_lines : List PyStr → List ItemT
  | [] => []
  | l :: ls => parseLineU l ++ parse_user_lines ls

/-- The final quality/name step of the audit fallback (lines 186-206) on
the optional last token: the last token is popped as the quality when it
is a single shortcut letter or a full tier name; the remaining tokens,
joined, stripped and title-cased, must form a nonempty name. -/
def parseAuditLast (amt : Int) (restT : List PyStr) : Option PyStr → List ItemT
  | none => []
  | some lastT =>
    let lastL := pyLowerStr lastT
    let qi : PyStr × List PyStr :=
      if lastL ∈ [s ("c"), s ("u"), s ("r"), s ("h"), s ("e"), s ("l")]
          ∨ lastL ∈ sixTiersLower then
        (parse_quality lastL, restT.dropLast)
      else (s ("Common"), restT)
    let item := pyTitleStr (pyStrip (List.intercalate [' '] qi.2))
    if item = [] then [] else [(item, qi.1, amt)]

/-- The audit fallback's amount requirement (lines 181-184): the first
token, stripped of trailing x characters, must be all digits or the
line is dropped. -/
def parseAuditAmount : List PyStr → List ItemT
  | [] => []
  | t0 :: restT =>
    let amtTok := pyRStripSet ['x', '×'] t0
    if pyIsDigitStr amtTok then
      parseAuditLast (natOfDigits amtTok : Int) restT restT.getLast?
    else []

/-- The audit fallback's minimum-token requirement (lines 177-179). -/
def parseAuditTokens (tokens : List PyStr) : List ItemT :=
  if tokens.length < 2 then [] else parseAuditAmount tokens

/-- Dispatch on the strict-pattern result for one audit line: on a match
the record is emitted directly with the tier group title-cased
(lines 170-175); otherwise the whitespace-token fallback runs. -/
def parseAuditMatch : Option (List Char × List Char × List Char) → PyStr → List ItemT
  | some (g1, g2, g3), _ =>
    [(pyTitleStr (pyStrip g2), pyTitleStr g3, (natOfDigits g1 : Int))]
  | none, line => parseAuditTokens (reSplitWs line)

/-- One line of the strict audit grammar (parse_audit_lines body,
lines 158-206): strip and drop leading non-word characters, try the
strict parenthesized pattern restricted to the six tier names, otherwise
run the whitespace-token fallback. -/
def parseAuditLine (line0 : PyStr) : List ItemT :=
  let line := (pyStrip line0).dropWhile notWordChar
  if line = [] then []
  else parseAuditMatch (matchStrictGen parenTailTier line) line

/-- parse_audit_lines of parsing.py (lines 139-208). -/
def parse_audit_lines : List PyStr → List ItemT
  | [] => []
  | l :: ls => parseAuditLine l ++ parse_audit_lines ls

/-- QUALITY_EMOJIS of formatting.py (lines 23-30). -/
def QUALITY_EMOJIS : List (PyStr × Char) :=
  [(s ("Common"), '⚪'), (s ("Uncommon"), '🟢'), (s ("Rare"), '🔵'),
   (s ("Heroic"), '🟡'), (s ("Epic"), '🟣'), (s ("Legendary"), '🟠')]

/-- Dictionary lookup with the bullet default, formatting.py line 97. -/
def emojiFor (q : PyStr) : Char :=
  match QUALITY_EMOJIS.find? (fun e => e.1 = q) with
  | some e => e.2
  | none => '•'

/-- One rendered preview line, formatting.py line 96-97: a falsy (empty)
quality is replaced by Common, then the emoji, amount, multiplication
sign, item and parenthesized quality are interpolated. -/
def formatLine (it : ItemT) : PyStr :=
  let q := if it.2.1 = [] then s ("Common") else it.2.1
  emojiFor q :: ' ' :: (intToStr it.2.2 ++ (s (" × ") ++ (it.1 ++ (s (" (") ++ (q ++ [')'])))))

/-- format_preview of formatting.py (lines 79-99): newline-joined
rendered lines. -/
def format_preview (items : List ItemT) : PyStr :=
  List.intercalate ['\n'] (items.map formatLine)

/-- Split a rendered multi-line block back into lines. -/
def splitLinesNl (t : PyStr) : List PyStr := splitOnP (fun c => c = '\n') t

/-!
The word-stream segmenter scan_items of ocr_service.py (lines 112-199).
The OCR word data is a parallel array of text plus bounding box; it is
modeled as a list of word tokens.  The image enters only through its
dimensions and through the cropped region handed to the color classifier;
the classifier call on the cropped pixels (detect_quality_hsv applied to
image.crop) is abstracted as a function from the crop rectangle to the
quality string, so that facts about segmentation hold for every
classifier.  The async qualifier of the source function has no effect on
its value.  The nested while loops are modeled with structural fuel on
the token list length: every iteration of the outer loop advances the
index by at least one, so a fuel equal to the list length never runs out.
-/

/-- One OCR word: recognized text plus bounding box, ocr_service.py
parallel arrays text / left / top / width / height. -/
structure WordTok where
  text : PyStr
  left : Int
  top : Int
  width : Int
  height : Int
deriving DecidableEq

/-- A crop rectangle (left, upper, right, lower), as passed to
image.crop. -/
abbrev CropRect := Int × Int × Int × Int

/-- Normalization of the outer-loop word, ocr_service.py line 133:
strip, lowercase, strip trailing colons. -/
def normTokOuter (t : PyStr) : PyStr :=
  pyRStripSet [':'] (pyLowerStr (pyStrip t))

/-- Normalization of the inner-loop word, ocr_service.py line 144:
the already-stripped word is lowercased, stripped, and stripped of
trailing colons. -/
def normTokInner (w : PyStr) : PyStr :=
  pyRStripSet [':'] (pyStrip (pyLowerStr w))

/-- Is a normalized word one of the two boundary markers? -/
def isMarkerWord (n : PyStr) : Bool :=
  n = s ("acquired") ∨ n = s ("removed")

/-- The quantity marker test of ocr_service.py line 148: the word starts
with a lowercase x and the rest is a nonempty digit string. -/
def isQtyTok (w : PyStr) : Bool :=
  match w with
  | 'x' :: rest => pyIsDigitStr rest
  | _ => false

/-- The inner collection loop of scan_items (lines 142-160): accumulate
stripped words and their tokens until an empty-after-strip word or a
boundary marker is seen (not consumed), a quantity marker is seen
(consumed, setting the amount), or the stream ends.  Returns the
accumulated name words, the amount, the tokens whose boxes were
collected, and the remaining stream. -/
def collectTk : List WordTok → List PyStr × Int × List WordTok × List WordTok
  | [] => ([], 1, [], [])
  | t :: ts =>
    let w := pyStrip t.text
    if w = [] ∨ isMarkerWord (normTokInner w) then ([], 1, [], t :: ts)
    else if isQtyTok w then ([], (natOfDigits (w.drop 1) : Int), [], ts)
    else
      let r := collectTk ts
      (w :: r.1, r.2.1, t :: r.2.2.1, r.2.2.2)

/-- The name trim of scan_items lines 168-172: remove leading and
trailing runs of characters that are neither word characters nor
parentheses, then strip outer bracket characters. -/
def trimOcrName (raw : PyStr) : PyStr :=
  let keep : Char → Bool := fun c => pyIsWord c ∨ c = '(' ∨ c = ')'
  pyStripSet ['[', ']', '(', ')', '\x7b', '\x7d']
    (dropRightWhile (fun c => ¬ keep c) (raw.dropWhile (fun c => ¬ keep c)))

/-- The padded, clamped union crop rectangle of scan_items lines 188-193
over a nonempty list of boxes. -/
def cropOfBoxes (imgW imgH : Int) (bs : List (Int × Int × Int × Int)) : CropRect :=
  match bs with
  | [] => (0, 0, imgW, imgH)
  | b :: rest =>
    (max ((rest.foldl (fun a x => min a x.1) b.1) - 4) 0,
     max ((rest.foldl (fun a x => min a x.2.1) b.2.1) - 2) 0,
     min ((rest.foldl (fun a x => max a (x.1 + x.2.2.1)) (b.1 + b.2.2.1)) + 4) imgW,
     min ((rest.foldl (fun a x => max a (x.2.1 + x.2.2.2)) (b.2.1 + b.2.2.2)) + 2) imgH)

/-- The outer scan loop of scan_items, with structural fuel. -/
def scanItemsAux (classify : CropRect → PyStr) (imgW imgH : Int) :
    Nat → List WordTok → List ItemT
  | 0, _ => []
  | _ + 1, [] => []
  | fuel + 1, t :: rest =>
    if ¬ isMarkerWord (normTokOuter t.text) then
      scanItemsAux classify imgW imgH fuel rest
    else
      let col := collectTk rest
      if col.1 = [] then scanItemsAux classify imgW imgH fuel col.2.2.2
      else
        let rawName := pyStrip (List.intercalate [' '] col.1)
        let itemName := trimOcrName rawName
        if itemName = [] then scanItemsAux classify imgW imgH fuel col.2.2.2
        else
          let boxes :=
            if col.2.2.1 = [] then [((0 : Int), (0 : Int), imgW, imgH)]
            else col.2.2.1.map (fun tk => (tk.left, tk.top, tk.width, tk.height))
          let region := cropOfBoxes imgW imgH boxes
          (pyTitleStr itemName, classify region, col.2.1)
            :: scanItemsAux classify imgW imgH fuel col.2.2.2

/-- scan_items of ocr_service.py (lines 112-199), with the classifier
call abstracted. -/
def scan_items (classify : CropRect → PyStr) (imgW imgH : Int)
    (toks : List WordTok) : List ItemT :=
  scanItemsAux classify imgW imgH toks.length toks

/-!
The HSV quality classifier detect_quality_hsv of ocr_service.py
(lines 64-109).  The cropped region is modeled by the list of its pixels'
HSV values: the normalization and RGB-to-HSV conversion of lines 82-86
(numpy division by 255 and skimage rgb2hsv, with the hue scaled to
degrees) are external numeric library calls, so the region enters the
model as the (hue in degrees, saturation, value) triples they produce,
over the rationals.  numpy median sorts and, for an even count, averages
the two middle elements.
-/

/-- An HSV pixel: hue in degrees, saturation and value in the unit
interval. -/
structure Px where
  h : ℚ
  sat : ℚ
  v : ℚ
deriving DecidableEq

/-- QUALITY_HUE_RANGES of ocr_service.py (lines 35-42): an insertion-
ordered mapping from tier name to optional hue range. -/
def QUALITY_HUE_RANGES : List (PyStr × Option (ℚ × ℚ)) :=
  [(s ("Common"), none),
   (s ("Uncommon"), some (95, 140)),
   (s ("Rare"), some (190, 240)),
   (s ("Heroic"), some (40, 70)),
   (s ("Epic"), some (260, 310)),
   (s ("Legendary"), some (20, 50))]

/-- Insertion into a sorted list, for the median. -/
def insertSorted (x : ℚ) : List ℚ → List ℚ
  | [] => [x]
  | y :: ys => if x ≤ y then x :: y :: ys else y :: insertSorted x ys

/-- Insertion sort over the rationals. -/
def sortQ (l : List ℚ) : List ℚ := l.foldr insertSorted []

/-- numpy median: sort ascending; the middle element for an odd count,
the mean of the two middle elements for an even count. -/
def medianQ (l : List ℚ) : ℚ :=
  let ss := sortQ l
  let n := ss.length
  if n = 0 then 0
  else if n % 2 = 1 then ss.getD (n / 2) 0
  else (ss.getD (n / 2 - 1) 0 + ss.getD (n / 2) 0) / 2

/-- The pixels surviving the saturation and value thresholds
(ocr_service.py line 89, strict comparisons). -/
def survivors (px : List Px) (satT valT : ℚ) : List Px :=
  px.filter (fun p => satT < p.sat ∧ valT < p.v)

/-- The hue-table scan of detect_quality_hsv lines 97-109: entries
without a range are skipped; a normal range matches when the hue lies
between its bounds inclusively; an inverted range wraps around and
matches when the hue is at least the low bound or at most the high
bound; the first match wins and the fallback is Common. -/
def scanHueTable : List (PyStr × Option (ℚ × ℚ)) → ℚ → PyStr
  | [], _ => s ("Common")
  | (_, none) :: rest, hue => scanHueTable rest hue
  | (qual, some (lo, hi)) :: rest, hue =>
    if lo ≤ hi then
      if lo ≤ hue ∧ hue ≤ hi then qual else scanHueTable rest hue
    else
      if hue ≥ lo ∨ hue ≤ hi then qual else scanHueTable rest hue

/-- detect_quality_hsv of ocr_service.py (lines 64-109), on the HSV
pixels of the cropped region. -/
def detect_quality_hsv (px : List Px) (satT valT : ℚ) : PyStr :=
  let m := survivors px satT valT
  if m = [] then s ("Common")
  else scanHueTable QUALITY_HUE_RANGES (medianQ (m.map Px.h))

/-!
The OCR retry pipeline of ocr_listener.py, on_message lines 137-151.
The two pytesseract calls are the external OCR engine: each either
returns word data or raises, modeled as an Except value; a raised
exception aborts on_message and propagates (there is no handler around
these lines).  The primary pass runs the segmenter on the raw image
data; only when that result is empty is the image preprocessed and a
second OCR pass plus segmenter run attempted.  The segmenter runs
(scan_items over the raw and over the preprocessed image) enter as the
two functions scanRaw and scanPre.
-/

/-- The extraction sequence of on_message lines 137-146: primary OCR,
segmenter, and the fallback pass on the preprocessed image only when
the primary segmenter result is empty. -/
def ocrExtractItems {E D I : Type} (raw : Except E D) (pre : Except E D)
    (scanRaw scanPre : D → List I) : Except E (List I) :=
  match raw with
  | .error e => .error e
  | .ok d =>
    if (scanRaw d).isEmpty then
      match pre with
      | .error e => .error e
      | .ok d2 => .ok (scanPre d2)
    else .ok (scanRaw d)

/-- Whether the fallback (preprocessed) OCR pass is reached: only after
a successful primary pass whose segmenter output is empty. -/
def ocrFallbackUsed {E D I : Type} (raw : Except E D)
    (scanRaw : D → List I) : Bool :=
  match raw with
  | .error _ => false
  | .ok d => (scanRaw d).isEmpty

/-- A concrete OCR word token with a zero bounding box, for concrete
token streams. -/
def mkTok (t : String) : WordTok := ⟨s t, 0, 0, 0, 0⟩

/-- Specification reading of the hue-table scan, written from the spec's
words for comparison with the implementation: the tier of the first
entry, in the listed order, whose range matches the hue — a normal range
inclusively, an inverted range wrapping around — with entries lacking a
range skipped and Common when no entry matches. -/
def hueRangeMatches (hue : ℚ) (e : PyStr × Option (ℚ × ℚ)) : Bool :=
  match e.2 with
  | none => false
  | some (lo, hi) =>
    if lo ≤ hi then decide (lo ≤ hue ∧ hue ≤ hi)
    else decide (lo ≤ hue ∨ hue ≤ hi)

/-- Specification reading of the hue-table scan (continued): the tier of
the first matching entry, Common when there is none. -/
def firstMatchingTier (table : List (PyStr × Option (ℚ × ℚ))) (hue : ℚ) : PyStr :=
  match table.find? (hueRangeMatches hue) with
  | some e => e.1
  | none => s ("Common")

/-!
Theorems.  Each claim of the specification review is settled below; the
helper lemmas that several proofs share come first.
-/

/-- Claim C1, counterexample: the token "ruby" is not a single shortcut
letter, yet quality normalization maps it through the shortcut table to
"Rare" (its first letter is the Rare shortcut) instead of title-casing
it to the verbatim tier "Ruby". -/
theorem C1_counterexample :
    parse_quality (s ("ruby")) = s ("Rare") ∧
      ¬ parse_quality (s ("ruby")) = s ("Ruby") := by
  decide

/-- Claim C1, amended: for every quality token whose stripped lowercased
form is nonempty, parse_quality maps it through the fixed shortcut table
whenever its first character is a shortcut letter — even when the token
is longer than a single letter — and title-cases it verbatim otherwise. -/
theorem C1_quality_normalization (token : PyStr) (c : Char) (q : PyStr)
    (h : pyLowerStr (pyStrip token) = c :: q) :
    (∀ t, QUALITY_SHORTCUTS c = some t → parse_quality token = t) ∧
      (QUALITY_SHORTCUTS c = none → parse_quality token = pyTitleStr (c :: q)) := by
  constructor
  · intro t ht
    simp only [parse_quality, h, ht]
  · intro ht
    simp only [parse_quality, h, ht]

/-- Witness for the amended claim C1 at the token "ruby". -/
theorem C1_witness :
    pyLowerStr (pyStrip (s ("ruby"))) = 'r' :: s ("uby") ∧
      parse_quality (s ("ruby")) = s ("Rare") :=
  ⟨by decide,
    (C1_quality_normalization (s ("ruby")) 'r' (s ("uby")) (by decide)).1
      (s ("Rare")) (by decide)⟩

/-- Claim C2, counterexample: in the lenient fallback the segment
"copper ring" does not keep "ring" in the name with quality Common; the
last token's first letter is the Rare shortcut, so it is popped as the
quality and the result is ("Copper", "Rare", 1). -/
theorem C2_counterexample :
    parse_user_lines [s ("copper ring")] = [(s ("Copper"), s ("Rare"), 1)] ∧
      ¬ parse_user_lines [s ("copper ring")]
          = [(s ("Copper Ring"), s ("Common"), 1)] := by
  decide

/-- Every lowercased full tier name begins with its shortcut letter, so
the full-name test of the fallback is subsumed by the first-letter test. -/
theorem sixTiersLower_heads_are_shortcuts :
    ∀ t ∈ sixTiersLower, (QUALITY_SHORTCUTS (t.headD ' ')).isSome = true := by
  decide

/-- Claim C2, amended: in the token-splitting fallback the last remaining
token is popped as the quality if and only if its lowercased form starts
with one of the six shortcut letters (the six full tier names are the
special case of this); any other last token leaves the quality Common
and stays in the name. -/
theorem C2_fallback_quality_pop (rest : List PyStr) (lastT : PyStr)
    (h : rest.getLast? = some lastT) :
    (∀ c q, pyLowerStr lastT = c :: q → (QUALITY_SHORTCUTS c).isSome →
        fallbackQualitySplit rest = (parse_quality (pyLowerStr lastT), rest.dropLast)) ∧
      (∀ c q, pyLowerStr lastT = c :: q → QUALITY_SHORTCUTS c = none →
        fallbackQualitySplit rest = (s ("Common"), rest)) ∧
      (pyLowerStr lastT = [] → fallbackQualitySplit rest = (s ("Common"), rest)) := by
  refine ⟨?_, ?_, ?_⟩
  · intro c q hq hs
    simp only [fallbackQualitySplit, h, hq]
    have : (QUALITY_SHORTCUTS c).isSome = true := hs
    simp [this]
  · intro c q hq hs
    simp only [fallbackQualitySplit, h, hq]
    have hnotsix : ¬ (c :: q) ∈ sixTiersLower := by
      intro hmem
      have hsome := sixTiersLower_heads_are_shortcuts _ hmem
      rw [List.headD_cons, hs] at hsome
      exact absurd hsome (by decide)
    simp [hs, hnotsix]
  · intro hq
    simp only [fallbackQualitySplit, h, hq]
    simp

/-- Witness for the amended claim C2 at the tokens of "copper ring". -/
theorem C2_witness :
    [s ("copper"), s ("ring")].getLast? = some (s ("ring")) ∧
      fallbackQualitySplit [s ("copper"), s ("ring")] = (s ("Rare"), [s ("copper")]) :=
  ⟨by decide, by
    have h := (C2_fallback_quality_pop [s ("copper"), s ("ring")] (s ("ring"))
        (by decide)).1 'r' (s ("ing")) (by decide) (by decide)
    exact h.trans (by decide)⟩

/-- Claim C10 (confirmed): in every record list handed to the preview
renderer, a record whose quality field is empty is rendered as the
Common tier: its line carries the Common emoji and the label (Common),
so the renderer never emits an empty quality label. -/
theorem C10_empty_quality_renders_common (pre post : List ItemT)
    (item : PyStr) (amount : Int) :
    format_preview (pre ++ (item, [], amount) :: post) =
      List.intercalate ['\n']
        (pre.map formatLine ++
          ('⚪' :: ' ' ::
            (intToStr amount ++
              (s (" × ") ++ (item ++ (s (" (") ++ (s ("Common") ++ [')']))))))
            :: post.map formatLine) := by
  simp only [format_preview, List.map_append, List.map_cons]
  rfl

/-- Claim C7, counterexample: the line "10xOak(Epic)" has a single
whitespace token, and its first token is not all digits even after
stripping trailing x characters, yet the strict audit grammar parses it
(through the parenthesized form) instead of omitting it. -/
theorem C7_counterexample :
    parse_audit_lines [s ("10xOak(Epic)")] = [(s ("Oak"), s ("Epic"), 10)] ∧
      (pySplitWs (s ("10xOak(Epic)"))).length < 2 ∧
      ¬ pyIsDigitStr (pyRStripSet ['x', '×'] (s ("10xOak(Epic)"))) = true := by
  decide

/-- Claim C7, amended: the strict audit grammar is total and per-line: a
list of lines parses to the concatenation of its per-line results, so a
dropped line never disturbs its siblings, and the overall result is
empty exactly when no line produced anything.  A line that fails the
strict parenthesized pattern and then has fewer than two whitespace
tokens, or a first token that is not all digits after stripping trailing
x characters, is silently omitted. -/
theorem C7_audit_leniency :
    (∀ l ls, parse_audit_lines (l :: ls) = parseAuditLine l ++ parse_audit_lines ls) ∧
      (∀ lines, parse_audit_lines lines = [] ↔ ∀ l ∈ lines, parseAuditLine l = []) ∧
      (∀ line,
        matchStrictGen parenTailTier
            ((pyStrip line).dropWhile notWordChar) = none →
        ((reSplitWs ((pyStrip line).dropWhile notWordChar)).length < 2 ∨
          ¬ pyIsDigitStr (pyRStripSet ['x', '×']
              ((reSplitWs ((pyStrip line).dropWhile notWordChar)).headD []))
            = true) →
        parseAuditLine line = []) := by
  refine ⟨fun l ls => rfl, ?_, ?_⟩
  · intro lines
    induction lines with
    | nil => simp [parse_audit_lines]
    | cons l ls ih => simp [parse_audit_lines, List.append_eq_nil, ih]
  · intro line hstrict hbad
    simp only [parseAuditLine, hstrict]
    by_cases hempty : (pyStrip line).dropWhile notWordChar = []
    · simp [hempty]
    · rw [if_neg hempty]
      simp only [parseAuditMatch]
      rcases hbad with hbad | hbad
      · simp [parseAuditTokens, hbad]
      · unfold parseAuditTokens
        by_cases hlen :
            (reSplitWs ((pyStrip line).dropWhile notWordChar)).length < 2
        · simp [hlen]
        · rw [if_neg hlen]
          cases htok : reSplitWs ((pyStrip line).dropWhile notWordChar) with
          | nil => rfl
          | cons t0 restT =>
            rw [htok, List.headD_cons] at hbad
            simp only [parseAuditAmount]
            rw [if_neg]
            intro hc
            exact hbad hc

/-- Witness for the amended claim C7 at the line "Oak Wood", which lacks
a leading amount token and is dropped without affecting anything else. -/
theorem C7_witness :
    matchStrictGen parenTailTier
        ((pyStrip (s ("Oak Wood"))).dropWhile notWordChar) = none ∧
      parseAuditLine (s ("Oak Wood")) = [] :=
  ⟨by decide, C7_audit_leniency.2.2 (s ("Oak Wood")) (by decide) (Or.inr (by decide))⟩

/-- Claim C3, counterexample: an OCR token whose text strips to empty
also ends name accumulation: after the marker, the stream Oak, empty,
Wood yields the record name "Oak", not "Oak Wood". -/
theorem C3_counterexample :
    (scan_items (fun _ => s ("Common")) 100 100
        [mkTok "Acquired", mkTok "Oak", mkTok "", mkTok "Wood"]).map (fun r => r.1)
      = [s ("Oak")] ∧ ¬ s ("Oak") = s ("Oak Wood") := by
  decide


/-- The ten decimal digit characters. -/
def tenDigits : List Char := ['0', '1', '2', '3', '4', '5', '6', '7', '8', '9']

/-- A character passing the digit test is one of the ten digit
characters. -/
theorem mem_tenDigits (c : Char) (h : pyIsDigit c = true) : c ∈ tenDigits := by
  simp [pyIsDigit, Char.isDigit] at h
  obtain ⟨h1, h2⟩ := h
  have h1n : 48 ≤ c.toNat := h1
  have h2n : c.toNat ≤ 57 := h2
  have hmem : c ∈ (List.range 10).map (fun d => Char.ofNat (48 + d)) := by
    refine List.mem_map.mpr ⟨c.toNat - 48, List.mem_range.mpr (by omega), ?_⟩
    rw [show 48 + (c.toNat - 48) = c.toNat by omega]
    exact Char.ofNat_toNat c
  exact (by decide :
    (List.range 10).map (fun d => Char.ofNat (48 + d)) = tenDigits) ▸ hmem

/-- Character-class facts about decimal digit characters that the proofs
below use. -/
theorem digit_char_facts (c : Char) (h : pyIsDigit c = true) :
    c.toLower = c ∧ pyIsSpace c = false ∧ pyIsWord c = true ∧
      c.isAlpha = false ∧ ¬ c = ':' ∧ ¬ c = '(' ∧ ¬ c = ')' ∧ ¬ c = ',' ∧
      ¬ c = '+' ∧ ¬ c = ';' ∧ ¬ c = '\n' ∧ ¬ c = 'x' ∧ ¬ c = 'X' ∧
      ¬ c = '×' := by
  have hm := mem_tenDigits c h
  fin_cases hm <;> decide

/-- A list each of whose members fails the predicate is unchanged by
dropWhile. -/
theorem dropWhile_eq_self_of_all (p : Char → Bool) (t : List Char)
    (h : ∀ c ∈ t, p c = false) : t.dropWhile p = t := by
  cases t with
  | nil => rfl
  | cons c cs =>
    rw [List.dropWhile_cons, h c (by simp)]
    simp

/-- A list each of whose members fails the predicate is unchanged by
dropRightWhile. -/
theorem dropRightWhile_eq_self_of_all (p : Char → Bool) (t : List Char)
    (h : ∀ c ∈ t, p c = false) : dropRightWhile p t = t := by
  unfold dropRightWhile
  rw [dropWhile_eq_self_of_all p t.reverse (fun c hc => h c (List.mem_reverse.mp hc))]
  exact List.reverse_reverse t

/-- A whitespace-free string is unchanged by strip. -/
theorem pyStrip_eq_self_of_all (t : PyStr) (h : ∀ c ∈ t, pyIsSpace c = false) :
    pyStrip t = t := by
  unfold pyStrip
  rw [dropWhile_eq_self_of_all _ t h]
  exact dropRightWhile_eq_self_of_all _ t h

/-- Mapping the identity-on-members function leaves a list unchanged. -/
theorem map_eq_self_of_all (f : Char → Char) (t : List Char)
    (h : ∀ c ∈ t, f c = c) : t.map f = t := by
  induction t with
  | nil => rfl
  | cons c cs ih => simp [h c (by simp), ih (fun x hx => h x (by simp [hx]))]

/-- The shape of a quantity marker: a lowercase x followed by a nonempty
digit string. -/
theorem isQtyTok_shape (w : PyStr) (h : isQtyTok w = true) :
    ∃ rest, w = 'x' :: rest ∧ pyIsDigitStr rest = true := by
  unfold isQtyTok at h
  split at h
  · next rest => exact ⟨rest, rfl, h⟩
  · exact absurd h (by simp)

/-- A quantity marker is neither empty nor a boundary marker, so the
collection loop always takes its quantity branch on one. -/
theorem isQtyTok_not_break (w : PyStr) (h : isQtyTok w = true) :
    ¬ w = [] ∧ isMarkerWord (normTokInner w) = false := by
  obtain ⟨rest, hw, hd⟩ := isQtyTok_shape w h
  subst hw
  have hrest : ∀ c ∈ rest, pyIsDigit c = true := by
    unfold pyIsDigitStr at hd
    simp only [Bool.and_eq_true, decide_eq_true_eq, List.all_eq_true] at hd
    exact hd.2
  have hfix : ∀ c ∈ ('x' :: rest), c.toLower = c ∧ pyIsSpace c = false ∧ ¬ c = ':' := by
    intro c hc
    rcases List.mem_cons.mp hc with hc | hc
    · subst hc; exact ⟨by decide, by decide, by decide⟩
    · obtain ⟨f1, f2, _, _, f5, _⟩ := digit_char_facts c (hrest c hc)
      exact ⟨f1, f2, f5⟩
  have hnorm : normTokInner ('x' :: rest) = 'x' :: rest := by
    unfold normTokInner
    rw [show pyLowerStr ('x' :: rest) = 'x' :: rest from
      map_eq_self_of_all _ _ (fun c hc => (hfix c hc).1)]
    rw [pyStrip_eq_self_of_all _ (fun c hc => (hfix c hc).2.1)]
    exact dropRightWhile_eq_self_of_all _ _ (fun c hc => by
      simp only [List.mem_singleton, decide_eq_false_iff_not]
      exact (hfix c hc).2.2)
  refine ⟨by simp, ?_⟩
  rw [hnorm]
  have h1 : ¬ ('x' :: rest) = s ("acquired") := by
    rw [show s ("acquired") = 'a' :: s ("cquired") from by decide]
    intro he
    injection he with hc _
    exact absurd hc (by decide)
  have h2 : ¬ ('x' :: rest) = s ("removed") := by
    rw [show s ("removed") = 'r' :: s ("emoved") from by decide]
    intro he
    injection he with hc _
    exact absurd hc (by decide)
  simp [isMarkerWord, h1, h2]

/-- The collection loop on a token it accumulates: one step. -/
theorem collectTk_cons_plain (t : WordTok) (rest : List WordTok)
    (h1 : ¬ pyStrip t.text = [])
    (h2 : isMarkerWord (normTokInner (pyStrip t.text)) = false)
    (h3 : isQtyTok (pyStrip t.text) = false) :
    collectTk (t :: rest) =
      (pyStrip t.text :: (collectTk rest).1, (collectTk rest).2.1,
        t :: (collectTk rest).2.2.1, (collectTk rest).2.2.2) := by
  have hnb : ¬ (pyStrip t.text = [] ∨
      isMarkerWord (normTokInner (pyStrip t.text)) = true) := by
    intro hc
    rcases hc with hc | hc
    · exact h1 hc
    · rw [h2] at hc; exact Bool.false_ne_true hc
  have hnq : ¬ isQtyTok (pyStrip t.text) = true := by
    rw [h3]; exact Bool.false_ne_true
  simp only [collectTk]
  rw [if_neg hnb, if_neg hnq]

/-- Claim C3, amended: after a boundary marker, the collection loop
accumulates every token that is nonempty after stripping, is not a
boundary marker, and is not a quantity marker; accumulation ends exactly
at the end of the stream, at a boundary marker or empty-after-strip
token (either one not consumed), or at a quantity marker (consumed, and
setting the explicit quantity). -/
theorem C3_name_accumulation (ws : List WordTok)
    (h : ∀ t ∈ ws, ¬ pyStrip t.text = [] ∧
        isMarkerWord (normTokInner (pyStrip t.text)) = false ∧
        isQtyTok (pyStrip t.text) = false) :
    (collectTk ws = (ws.map (fun t => pyStrip t.text), 1, ws, [])) ∧
      (∀ t ts, (pyStrip t.text = [] ∨ isMarkerWord (normTokInner (pyStrip t.text)) = true) →
        collectTk (ws ++ t :: ts) = (ws.map (fun t => pyStrip t.text), 1, ws, t :: ts)) ∧
      (∀ t ts, isQtyTok (pyStrip t.text) = true →
        collectTk (ws ++ t :: ts)
          = (ws.map (fun t => pyStrip t.text),
              (natOfDigits ((pyStrip t.text).drop 1) : Int), ws, ts)) := by
  induction ws with
  | nil =>
    refine ⟨rfl, ?_, ?_⟩
    · intro t ts ht
      simp only [List.nil_append, collectTk]
      rw [if_pos ht]
      rfl
    · intro t ts ht
      obtain ⟨h1, h2⟩ := isQtyTok_not_break _ ht
      have hnb : ¬ (pyStrip t.text = [] ∨
          isMarkerWord (normTokInner (pyStrip t.text)) = true) := by
        intro hc
        rcases hc with hc | hc
        · exact h1 hc
        · rw [h2] at hc; exact Bool.false_ne_true hc
      simp only [List.nil_append, collectTk]
      rw [if_neg hnb, if_pos ht]
      rfl
  | cons t' ws' ih =>
    obtain ⟨ht', hws'⟩ : (¬ pyStrip t'.text = [] ∧
        isMarkerWord (normTokInner (pyStrip t'.text)) = false ∧
        isQtyTok (pyStrip t'.text) = false) ∧
        ∀ t ∈ ws', ¬ pyStrip t.text = [] ∧
          isMarkerWord (normTokInner (pyStrip t.text)) = false ∧
          isQtyTok (pyStrip t.text) = false :=
      ⟨h t' (by simp), fun t htm => h t (by simp [htm])⟩
    obtain ⟨ihA, ihB, ihC⟩ := ih hws'
    refine ⟨?_, ?_, ?_⟩
    · rw [collectTk_cons_plain t' ws' ht'.1 ht'.2.1 ht'.2.2, ihA]
      rfl
    · intro t ts ht
      rw [List.cons_append,
        collectTk_cons_plain t' (ws' ++ t :: ts) ht'.1 ht'.2.1 ht'.2.2,
        ihB t ts ht]
      rfl
    · intro t ts ht
      rw [List.cons_append,
        collectTk_cons_plain t' (ws' ++ t :: ts) ht'.1 ht'.2.1 ht'.2.2,
        ihC t ts ht]
      rfl

/-- Witness for the amended claim C3: one plain token, then an
empty-text token ends the record without being consumed. -/
theorem C3_witness :
    (∀ t ∈ [mkTok "Oak"], ¬ pyStrip t.text = [] ∧
        isMarkerWord (normTokInner (pyStrip t.text)) = false ∧
        isQtyTok (pyStrip t.text) = false) ∧
      collectTk [mkTok "Oak", mkTok "", mkTok "Wood"]
        = ([s ("Oak")], 1, [mkTok "Oak"], [mkTok "", mkTok "Wood"]) :=
  ⟨by decide, by
    have h := (C3_name_accumulation [mkTok "Oak"] (by decide)).2.1
      (mkTok "") [mkTok "Wood"] (Or.inl (by decide))
    exact h.trans (by decide)⟩

/-- Claim C8 (confirmed): on the token stream Acquired, Oak, Wood, x5,
Removed, Iron, Ore the segmenter yields exactly the records
("Oak Wood", 5) then ("Iron Ore", 1), whatever the color classifier
returns for the crop regions (the quality is delegated entirely to the
classifier at this stage). -/
theorem C8_segmenter_example (classify : CropRect → PyStr) :
    (scan_items classify 100 100
        [mkTok "Acquired", mkTok "Oak", mkTok "Wood", mkTok "x5",
         mkTok "Removed", mkTok "Iron", mkTok "Ore"]).map (fun r => (r.1, r.2.2))
      = [(s ("Oak Wood"), 5), (s ("Iron Ore"), 1)] := by
  rfl

/-- The implementation's hue-table scan agrees, entry by entry, with the
specification reading of first-match semantics. -/
theorem scanHueTable_eq_firstMatch (table : List (PyStr × Option (ℚ × ℚ)))
    (hue : ℚ) : scanHueTable table hue = firstMatchingTier table hue := by
  induction table with
  | nil => rfl
  | cons e rest ih =>
    obtain ⟨q, r⟩ := e
    unfold firstMatchingTier at ih ⊢
    cases r with
    | none =>
      rw [List.find?_cons_of_neg _ (by simp [hueRangeMatches])]
      exact ih
    | some lohi =>
      obtain ⟨lo, hi⟩ := lohi
      by_cases hpa : hueRangeMatches hue (q, some (lo, hi)) = true
      · rw [List.find?_cons_of_pos _ hpa]
        unfold hueRangeMatches at hpa
        simp only at hpa
        simp only [scanHueTable]
        by_cases hcmp : lo ≤ hi
        · rw [if_pos hcmp] at hpa ⊢
          rw [if_pos (of_decide_eq_true hpa)]
        · rw [if_neg hcmp] at hpa ⊢
          rw [if_pos (of_decide_eq_true hpa)]
      · rw [List.find?_cons_of_neg _ hpa]
        unfold hueRangeMatches at hpa
        simp only at hpa
        simp only [scanHueTable]
        by_cases hcmp : lo ≤ hi
        · rw [if_pos hcmp] at hpa ⊢
          rw [if_neg (by simpa using hpa)]
          exact ih
        · rw [if_neg hcmp] at hpa ⊢
          rw [if_neg (by simpa using hpa)]
          exact ih

/-- Claim C6 (confirmed): for every region with at least one pixel above
both thresholds, the classifier returns the tier of the first entry of
the QualityHueTable, scanned in its listed order, whose range matches
the median hue of the surviving pixels — normal ranges inclusively,
wrap-around ranges disjunctively — with range-less entries skipped and
Common returned when no entry matches. -/
theorem C6_classifier_first_match (px : List Px) (satT valT : Rat)
    (h : ¬ survivors px satT valT = []) :
    detect_quality_hsv px satT valT
      = firstMatchingTier QUALITY_HUE_RANGES
          (medianQ ((survivors px satT valT).map Px.h)) := by
  unfold detect_quality_hsv
  rw [if_neg h]
  exact scanHueTable_eq_firstMatch _ _

/-- Witness for claim C6 at a single saturated pixel of hue 300, whose
median hue falls in the Epic range. -/
theorem C6_witness :
    ¬ survivors [⟨300, 1, 1⟩] (mkRat 3 10) (mkRat 1 5) = [] ∧
      detect_quality_hsv [⟨300, 1, 1⟩] (mkRat 3 10) (mkRat 1 5)
        = firstMatchingTier QUALITY_HUE_RANGES
            (medianQ ((survivors [⟨300, 1, 1⟩] (mkRat 3 10) (mkRat 1 5)).map Px.h)) :=
  ⟨by decide, C6_classifier_first_match _ _ _ (by decide)⟩

/-- Claim C9 (confirmed): the fallback OCR pass over the preprocessed
image is attempted exactly when the primary pass succeeded and its
segmenter output was empty; a non-empty primary result is returned
without a second pass; an error raised by the OCR engine, in either
pass, is not retried and propagates unchanged. -/
theorem C9_retry_on_empty {E D I : Type} (raw pre : Except E D)
    (scanRaw scanPre : D → List I) :
    (∀ e, raw = .error e →
        ocrExtractItems raw pre scanRaw scanPre = .error e ∧
          ocrFallbackUsed raw scanRaw = false) ∧
      (∀ d, raw = .ok d → ¬ scanRaw d = [] →
        ocrExtractItems raw pre scanRaw scanPre = .ok (scanRaw d) ∧
          ocrFallbackUsed raw scanRaw = false) ∧
      (∀ d, raw = .ok d → scanRaw d = [] →
        ocrFallbackUsed raw scanRaw = true ∧
          (∀ e, pre = .error e →
            ocrExtractItems raw pre scanRaw scanPre = .error e) ∧
          (∀ d2, pre = .ok d2 →
            ocrExtractItems raw pre scanRaw scanPre = .ok (scanPre d2))) := by
  refine ⟨?_, ?_, ?_⟩
  · intro e he
    subst he
    exact ⟨rfl, rfl⟩
  · intro d hd hne
    subst hd
    have : (scanRaw d).isEmpty = false := by
      cases hsc : scanRaw d with
      | nil => exact absurd hsc hne
      | cons a l => rfl
    constructor
    · simp [ocrExtractItems, this]
    · simp [ocrFallbackUsed, this]
  · intro d hd he
    subst hd
    have : (scanRaw d).isEmpty = true := by rw [he]; rfl
    refine ⟨by simp [ocrFallbackUsed, this], ?_, ?_⟩
    · intro e hpre
      subst hpre
      simp [ocrExtractItems, this]
    · intro d2 hpre
      subst hpre
      simp [ocrExtractItems, this]

/-- Witness for claim C9: a successful primary pass with an empty
segmenter result reaches the fallback, whose result is returned. -/
theorem C9_witness :
    (fun _ : Nat => ([] : List Nat)) 0 = [] ∧
      ocrFallbackUsed (Except.ok 0 : Except Unit Nat) (fun _ => ([] : List Nat)) = true ∧
      ocrExtractItems (Except.ok 0 : Except Unit Nat) (Except.ok 1)
        (fun _ => ([] : List Nat)) (fun _ => [7]) = .ok [7] := by
  refine ⟨rfl, ?_, ?_⟩
  · exact ((C9_retry_on_empty (Except.ok 0) (Except.ok 1)
      (fun _ => []) (fun _ => [7])).2.2 0 rfl rfl).1
  · exact ((C9_retry_on_empty (Except.ok 0) (Except.ok 1)
      (fun _ => []) (fun _ => [7])).2.2 0 rfl rfl).2.2 1 rfl

/-- Every record emitted for one lenient-grammar segment has a
nonnegative amount: the amount is either the default 1 or the value of a
digit string. -/
theorem parseSegment_amount_nonneg (part : PyStr) :
    ∀ x ∈ parseSegment part, 0 ≤ x.2.2 := by
  have hrest : ∀ (amount : Int), 0 ≤ amount →
      ∀ rest x, x ∈ parseFallbackRest amount rest → 0 ≤ x.2.2 := by
    intro amount h rest x hx
    cases rest with
    | nil => exact absurd hx (List.not_mem_nil x)
    | cons r0 rs =>
      simp only [parseFallbackRest] at hx
      split at hx
      · exact absurd hx (List.not_mem_nil x)
      · simp only [List.mem_singleton] at hx
        subst hx
        exact h
  intro x hx
  simp only [parseSegment] at hx
  split at hx
  · exact absurd hx (List.not_mem_nil x)
  · cases hm : matchStrictGen parenTailAny ((pyStrip part).dropWhile notWordChar) with
    | some g =>
      obtain ⟨g1, g2, g3⟩ := g
      rw [hm] at hx
      simp only [parseSegMatch, List.mem_singleton] at hx
      subst hx
      exact Int.natCast_nonneg _
    | none =>
      rw [hm] at hx
      simp only [parseSegMatch] at hx
      cases htok : pySplitWs ((pyStrip part).dropWhile notWordChar) with
      | nil => rw [htok] at hx; exact absurd hx (List.not_mem_nil x)
      | cons t0 rest0 =>
        rw [htok] at hx
        simp only [parseFallbackTokens] at hx
        split at hx
        · exact hrest _ (Int.natCast_nonneg _) _ x hx
        · exact hrest _ zero_le_one _ x hx

/-- Every record emitted for a list of lenient-grammar segments has a
nonnegative amount. -/
theorem parseSegments_amount_nonneg (ps : List PyStr) :
    ∀ x ∈ parseSegments ps, 0 ≤ x.2.2 := by
  induction ps with
  | nil => intro x hx; exact absurd hx (List.not_mem_nil x)
  | cons p ps ih =>
    intro x hx
    rcases List.mem_append.mp hx with hx | hx
    · exact parseSegment_amount_nonneg p x hx
    · exact ih x hx

/-- Every record emitted for one strict audit line has a nonnegative
amount. -/
theorem parseAuditLine_amount_nonneg (line : PyStr) :
    ∀ x ∈ parseAuditLine line, 0 ≤ x.2.2 := by
  intro x hx
  simp only [parseAuditLine] at hx
  split at hx
  · exact absurd hx (List.not_mem_nil x)
  · cases hm : matchStrictGen parenTailTier ((pyStrip line).dropWhile notWordChar) with
    | some g =>
      obtain ⟨g1, g2, g3⟩ := g
      rw [hm] at hx
      simp only [parseAuditMatch, List.mem_singleton] at hx
      subst hx
      exact Int.natCast_nonneg _
    | none =>
      rw [hm] at hx
      simp only [parseAuditMatch, parseAuditTokens] at hx
      split at hx
      · exact absurd hx (List.not_mem_nil x)
      · cases htok : reSplitWs ((pyStrip line).dropWhile notWordChar) with
        | nil => rw [htok] at hx; exact absurd hx (List.not_mem_nil x)
        | cons t0 restT =>
          rw [htok] at hx
          simp only [parseAuditAmount] at hx
          split at hx
          · cases ho : restT.getLast? with
            | none => rw [ho] at hx; exact absurd hx (List.not_mem_nil x)
            | some lastT =>
              rw [ho] at hx
              simp only [parseAuditLast] at hx
              split at hx <;> split at hx
              all_goals
                first
                | exact absurd hx (List.not_mem_nil x)
                | (simp only [List.mem_singleton] at hx
                   subst hx
                   exact Int.natCast_nonneg _)
          · exact absurd hx (List.not_mem_nil x)

/-- The amount returned by the collection loop is nonnegative. -/
theorem collectTk_amount_nonneg (ts : List WordTok) : 0 ≤ (collectTk ts).2.1 := by
  induction ts with
  | nil => decide
  | cons t ts ih =>
    by_cases h1 : pyStrip t.text = [] ∨ isMarkerWord (normTokInner (pyStrip t.text)) = true
    · simp only [collectTk]
      rw [if_pos h1]
      exact zero_le_one
    · by_cases h2 : isQtyTok (pyStrip t.text) = true
      · simp only [collectTk]
        rw [if_neg h1, if_pos h2]
        exact Int.natCast_nonneg _
      · simp only [collectTk]
        rw [if_neg h1, if_neg h2]
        exact ih

/-- Every record emitted by the fueled segmenter scan has a nonnegative
amount. -/
theorem scanItemsAux_amount_nonneg (classify : CropRect → PyStr)
    (imgW imgH : Int) :
    ∀ fuel toks x, x ∈ scanItemsAux classify imgW imgH fuel toks → 0 ≤ x.2.2 := by
  intro fuel
  induction fuel with
  | zero => intro toks x hx; exact absurd hx (List.not_mem_nil x)
  | succ fuel ih =>
    intro toks x hx
    cases toks with
    | nil => exact absurd hx (List.not_mem_nil x)
    | cons t rest =>
      simp only [scanItemsAux] at hx
      by_cases hmk : ¬ isMarkerWord (normTokOuter t.text) = true
      · rw [if_pos hmk] at hx
        exact ih rest x hx
      · rw [if_neg hmk] at hx
        by_cases hcol : (collectTk rest).1 = []
        · rw [if_pos hcol] at hx
          exact ih _ x hx
        · rw [if_neg hcol] at hx
          by_cases hnm :
              trimOcrName (pyStrip (List.intercalate [' '] (collectTk rest).1)) = []
          · rw [if_pos hnm] at hx
            exact ih _ x hx
          · rw [if_neg hnm] at hx
            rcases List.mem_cons.mp hx with hx | hx
            · rw [hx]
              exact collectTk_amount_nonneg rest
            · exact ih _ x hx

/-- Claim C4, counterexample: an explicit zero amount is passed through:
the lenient grammar emits the record ("Oak Wood", "Epic", 0), whose
amount is not at least 1. -/
theorem C4_counterexample :
    parse_user_lines [s ("0 x Oak Wood (Epic)")]
        = [(s ("Oak Wood"), s ("Epic"), 0)] ∧
      ¬ (1 : Int) ≤ 0 := by
  decide

/-- Claim C4, amended: every record produced by the word-stream
segmenter, the lenient grammar, or the strict audit grammar has a
nonnegative amount — amounts are the default 1 or the value of an
explicit digit string, so the invariant of at least 1 fails only for an
explicitly written zero amount. -/
theorem C4_amount_nonneg :
    (∀ lines x, x ∈ parse_user_lines lines → 0 ≤ x.2.2) ∧
      (∀ lines x, x ∈ parse_audit_lines lines → 0 ≤ x.2.2) ∧
      (∀ (classify : CropRect → PyStr) (imgW imgH : Int) toks x,
        x ∈ scan_items classify imgW imgH toks → 0 ≤ x.2.2) := by
  refine ⟨?_, ?_, ?_⟩
  · intro lines
    induction lines with
    | nil => intro x hx; exact absurd hx (List.not_mem_nil x)
    | cons l ls ih =>
      intro x hx
      rcases List.mem_append.mp hx with hx | hx
      · exact parseSegments_amount_nonneg _ x hx
      · exact ih x hx
  · intro lines
    induction lines with
    | nil => intro x hx; exact absurd hx (List.not_mem_nil x)
    | cons l ls ih =>
      intro x hx
      rcases List.mem_append.mp hx with hx | hx
      · exact parseAuditLine_amount_nonneg l x hx
      · exact ih x hx
  · intro classify imgW imgH toks x hx
    exact scanItemsAux_amount_nonneg classify imgW imgH _ toks x hx

/-- Witness for the amended claim C4 at the line "2 oak". -/
theorem C4_witness :
    (s ("Oak"), s ("Common"), (2 : Int)) ∈ parse_user_lines [s ("2 oak")] ∧
      (0 : Int) ≤ (s ("Oak"), s ("Common"), (2 : Int)).2.2 :=
  ⟨by decide, C4_amount_nonneg.1 [s ("2 oak")] _ (by decide)⟩

/-!
Claim C5: the render / re-parse round trip.  The lemmas below
characterize each stage of the lenient parse on a rendered preview
line.
-/

/-- The side conditions on a record's name under which the rendered
preview line parses back exactly: nonempty, whitespace-trimmed, a fixed
point of title-casing, and free of the segment delimiters, the opening
parenthesis, and the newline. -/
def goodName (n : PyStr) : Prop :=
  ¬ n = [] ∧ pyStrip n = n ∧ pyTitleStr n = n ∧
    ∀ c ∈ n, ¬ c = ',' ∧ ¬ c = '+' ∧ ¬ c = ';' ∧ ¬ c = '(' ∧ ¬ c = '\n'

instance (n : PyStr) : Decidable (goodName n) := by
  unfold goodName
  infer_instance

/-- Claim C5, counterexample: a canonical record whose title-cased name
contains a comma does not round-trip: the renderer's line is split at
the comma by the lenient grammar and parses to two different records. -/
theorem C5_counterexample :
    parse_user_lines (splitLinesNl (format_preview [(s ("Oak, Wood"), s ("Epic"), 2)]))
        = [(s ("× Oak"), s ("Common"), 2), (s ("Wood (Epic)"), s ("Common"), 1)] ∧
      ¬ parse_user_lines (splitLinesNl (format_preview [(s ("Oak, Wood"), s ("Epic"), 2)]))
          = [(s ("Oak, Wood"), s ("Epic"), 2)] := by
  decide

/-- The character of a digit below ten is a digit character whose value
is recovered by subtracting 48. -/
theorem digitChar_facts (d : Nat) (h : d < 10) :
    pyIsDigit (digitChar d) = true ∧ (digitChar d).toNat - 48 = d := by
  interval_cases d <;> decide

/-- The digit-string value of a one-longer string. -/
theorem natOfDigits_concat (ds : PyStr) (c : Char) :
    natOfDigits (ds ++ [c]) = 10 * natOfDigits ds + (c.toNat - 48) := by
  unfold natOfDigits
  rw [List.foldl_append]
  rfl

/-- The fueled decimal rendering is a nonempty all-digit string whose
value is the rendered number, for any sufficient fuel. -/
theorem natToDigitsAux_spec (fuel : Nat) : ∀ n, n < fuel →
    ¬ natToDigitsAux fuel n = [] ∧
      (∀ c ∈ natToDigitsAux fuel n, pyIsDigit c = true) ∧
      natOfDigits (natToDigitsAux fuel n) = n := by
  induction fuel with
  | zero => intro n hn; exact absurd hn (Nat.not_lt_zero n)
  | succ fuel ih =>
    intro n hn
    by_cases h10 : n < 10
    · simp only [natToDigitsAux, if_pos h10]
      refine ⟨by simp, ?_, ?_⟩
      · intro c hc
        rcases List.mem_singleton.mp hc with rfl
        exact (digitChar_facts n h10).1
      · show natOfDigits ([] ++ [digitChar n]) = n
        rw [natOfDigits_concat, (digitChar_facts n h10).2]
        simp [natOfDigits]
    · have hdiv : n / 10 < fuel := by omega
      obtain ⟨ih1, ih2, ih3⟩ := ih (n / 10) hdiv
      simp only [natToDigitsAux, if_neg h10]
      refine ⟨by simp, ?_, ?_⟩
      · intro c hc
        rcases List.mem_append.mp hc with hc | hc
        · exact ih2 c hc
        · rcases List.mem_singleton.mp hc with rfl
          exact (digitChar_facts (n % 10) (Nat.mod_lt n (by omega))).1
      · rw [natOfDigits_concat, ih3,
          (digitChar_facts (n % 10) (Nat.mod_lt n (by omega))).2]
        omega

/-- The decimal rendering of a natural number: nonempty, all digits,
value-faithful. -/
theorem natToDigits_spec (n : Nat) :
    ¬ natToDigits n = [] ∧ (∀ c ∈ natToDigits n, pyIsDigit c = true) ∧
      natOfDigits (natToDigits n) = n :=
  natToDigitsAux_spec (n + 1) n (Nat.lt_succ_self n)

/-- Character-class facts about the six tier names: each is nonempty,
made of word characters only, fixed by the quality filter, fixed by
quality normalization, and its emoji is neither whitespace, a word
character, a delimiter, a parenthesis, nor a newline. -/
theorem tier_render_facts : ∀ q ∈ sixTiers,
    (¬ q = []) ∧ (∀ c ∈ q, pyIsWord c = true ∧ pyIsSpace c = false ∧
        ¬ c = ',' ∧ ¬ c = '+' ∧ ¬ c = ';' ∧ ¬ c = '(' ∧ ¬ c = ')' ∧ ¬ c = '\n') ∧
      q.filter pyIsWord = q ∧ parse_quality q = q ∧
      pyIsSpace (emojiFor q) = false ∧ pyIsWord (emojiFor q) = false ∧
      ¬ emojiFor q = ',' ∧ ¬ emojiFor q = '+' ∧ ¬ emojiFor q = ';' ∧
      ¬ emojiFor q = '\n' := by
  decide

/-- A string all of whose characters fail the split predicate is kept
whole by the split. -/
theorem splitOnP_eq_single (p : Char → Bool) (t : List Char)
    (h : ∀ c ∈ t, p c = false) : splitOnP p t = [t] := by
  induction t with
  | nil => rfl
  | cons c cs ih =>
    simp only [splitOnP]
    rw [if_neg (by rw [h c (by simp)]; exact Bool.false_ne_true),
      ih (fun d hd => h d (by simp [hd]))]

/-- Splitting a string made of a clean part, one separator, and a
remainder: the clean part comes off whole. -/
theorem splitOnP_append_cons (p : Char → Bool) (a : List Char) (sep : Char)
    (b : List Char) (ha : ∀ c ∈ a, p c = false) (hsep : p sep = true) :
    splitOnP p (a ++ sep :: b) = a :: splitOnP p b := by
  induction a with
  | nil =>
    simp only [List.nil_append, splitOnP]
    rw [if_pos hsep]
  | cons c cs ih =>
    simp only [List.cons_append, splitOnP, List.append_eq]
    rw [if_neg (by rw [ha c (by simp)]; exact Bool.false_ne_true),
      ih (fun d hd => ha d (by simp [hd]))]

/-- dropWhile distributes over an append whose first part contains a
character failing the predicate. -/
theorem dropWhile_append_of_exists (p : Char → Bool) (a b : List Char)
    (h : ∃ c ∈ a, p c = false) : (a ++ b).dropWhile p = a.dropWhile p ++ b := by
  induction a with
  | nil =>
    rcases h with ⟨c, hc, _⟩
    exact absurd hc (List.not_mem_nil c)
  | cons c cs ih =>
    by_cases hc : p c = true
    · rw [List.cons_append, List.dropWhile_cons, if_pos hc,
        List.dropWhile_cons, if_pos hc]
      apply ih
      rcases h with ⟨d, hd, hdp⟩
      rcases List.mem_cons.mp hd with rfl | hd
      · rw [hc] at hdp; exact absurd hdp.symm Bool.false_ne_true
      · exact ⟨d, hd, hdp⟩
    · rw [List.cons_append, List.dropWhile_cons, if_neg hc,
        List.dropWhile_cons, if_neg hc, List.cons_append]

/-- The head of a dropWhile result is a member of the original list and
fails the predicate. -/
theorem dropWhile_head_facts (p : Char → Bool) (a : List Char) (d : Char)
    (rest : List Char) (h : a.dropWhile p = d :: rest) :
    d ∈ a ∧ p d = false := by
  induction a with
  | nil => exact absurd h (by simp)
  | cons c cs ih =>
    rw [List.dropWhile_cons] at h
    by_cases hc : p c = true
    · rw [if_pos hc] at h
      obtain ⟨hmem, hp⟩ := ih h
      exact ⟨by simp [hmem], hp⟩
    · rw [if_neg hc] at h
      injection h with h1 _
      constructor
      · rw [← h1]; simp
      · rw [← h1]; simpa using hc

/-- takeWhile and dropWhile on an all-satisfying prefix followed by a
failing head. -/
theorem takeWhile_dropWhile_append (p : Char → Bool) (a : List Char)
    (d : Char) (b : List Char) (ha : ∀ c ∈ a, p c = true) (hd : p d = false) :
    (a ++ d :: b).takeWhile p = a ∧ (a ++ d :: b).dropWhile p = d :: b := by
  induction a with
  | nil =>
    simp only [List.nil_append]
    rw [List.takeWhile_cons, List.dropWhile_cons, if_neg, if_neg]
    · exact ⟨rfl, rfl⟩
    · rw [hd]; exact Bool.false_ne_true
    · rw [hd]; exact Bool.false_ne_true
  | cons c cs ih =>
    obtain ⟨ih1, ih2⟩ := ih (fun x hx => ha x (by simp [hx]))
    rw [List.cons_append, List.takeWhile_cons, List.dropWhile_cons,
      if_pos (ha c (by simp)), if_pos (ha c (by simp)), ih1, ih2]
    exact ⟨rfl, rfl⟩

/-- A string equal to its own strip has its whitespace-free ends:
both one-sided trims already leave it unchanged. -/
theorem strip_eq_self_parts (t : PyStr) (h : pyStrip t = t) :
    t.dropWhile pyIsSpace = t ∧ dropRightWhile pyIsSpace t = t := by
  have hlen1 : (t.dropWhile pyIsSpace).length ≤ t.length :=
    (List.dropWhile_suffix pyIsSpace).sublist.length_le
  have hlen2 : (dropRightWhile pyIsSpace (t.dropWhile pyIsSpace)).length
      ≤ (t.dropWhile pyIsSpace).length := by
    unfold dropRightWhile
    rw [List.length_reverse]
    calc (List.dropWhile pyIsSpace (t.dropWhile pyIsSpace).reverse).length
        ≤ (t.dropWhile pyIsSpace).reverse.length :=
          (List.dropWhile_suffix pyIsSpace).sublist.length_le
      _ = (t.dropWhile pyIsSpace).length := List.length_reverse _
  have hlen : (pyStrip t).length = t.length := by rw [h]
  have heq1 : (t.dropWhile pyIsSpace).length = t.length := by
    unfold pyStrip at hlen
    omega
  have h1 : t.dropWhile pyIsSpace = t :=
    (List.dropWhile_suffix pyIsSpace).sublist.eq_of_length heq1
  refine ⟨h1, ?_⟩
  unfold pyStrip at h
  rw [h1] at h
  exact h

/-- A string whose one-sided whitespace trim is itself has a
non-whitespace head. -/
theorem head_not_space_of_dropWhile_eq (p : Char → Bool) (t : List Char)
    (h : t.dropWhile p = t) : ∀ c rest, t = c :: rest → p c = false := by
  intro c rest ht
  subst ht
  rw [List.dropWhile_cons] at h
  by_cases hc : p c = true
  · rw [if_pos hc] at h
    have hle : (rest.dropWhile p).length ≤ rest.length :=
      (List.dropWhile_suffix p).sublist.length_le
    have := congrArg List.length h
    simp at this
    omega
  · simpa using hc

/-- A whitespace-trimmed string has a non-whitespace head and a
non-whitespace last character. -/
theorem strip_eq_self_ends (t : PyStr) (h : pyStrip t = t) :
    (∀ c rest, t = c :: rest → pyIsSpace c = false) ∧
      (∀ c, t.getLast? = some c → pyIsSpace c = false) := by
  obtain ⟨h1, h2⟩ := strip_eq_self_parts t h
  refine ⟨head_not_space_of_dropWhile_eq _ t h1, ?_⟩
  intro c hc
  have hrev : (t.reverse).dropWhile pyIsSpace = t.reverse := by
    unfold dropRightWhile at h2
    have := congrArg List.reverse h2
    rwa [List.reverse_reverse] at this
  have hhead : t.reverse.head? = some c := by
    rw [List.head?_reverse]
    exact hc
  cases hrevt : t.reverse with
  | nil => rw [hrevt] at hhead; exact absurd hhead (by simp)
  | cons d ds =>
    rw [hrevt] at hhead
    injection hhead with hd
    subst hd
    exact head_not_space_of_dropWhile_eq _ t.reverse hrev d ds hrevt

/-- A list's optional last element is a member of it. -/
theorem mem_of_getLast?_eq (l : List Char) (d : Char) (h : l.getLast? = some d) :
    d ∈ l := by
  obtain ⟨hne, heq⟩ := List.mem_getLast?_eq_getLast (l := l) (x := d) h
  rw [heq]
  exact List.getLast_mem hne

/-- The parenthesized tail matcher on exactly an opening parenthesis, a
newline-free nonempty body, and the final closing parenthesis. -/
theorem parenTailAny_exact (q : PyStr) (h0 : ¬ q = []) (h2 : ¬ '\n' ∈ q) :
    parenTailAny ('(' :: (q ++ [')'])) = some q := by
  simp only [parenTailAny, if_true]
  rw [if_pos (List.getLast?_concat q), List.dropLast_concat, if_pos ⟨h0, h2⟩]

/-- The parenthesized tail matcher fails whenever the remainder does not
start with an opening parenthesis. -/
theorem parenTailAny_ne_paren (t : List Char)
    (h : ∀ c rest, t = c :: rest → ¬ c = '(') : parenTailAny t = none := by
  cases t with
  | nil => rfl
  | cons c rest =>
    simp only [parenTailAny]
    rw [if_neg (h c rest rfl)]

/-- The lazy name group on a rendered line: the group grows through the
whole name (whose characters contain no opening parenthesis and no
newline, and whose last character is not whitespace) and the tail then
matches exactly the parenthesized quality. -/
theorem findG2_on_name (q : PyStr) (hq0 : ¬ q = []) (hqn : ¬ '\n' ∈ q) :
    ∀ (n1 : PyStr) (acc : List Char), ¬ n1 = [] →
      (∀ c ∈ n1, ¬ c = '(' ∧ ¬ c = '\n') →
      (∀ c, n1.getLast? = some c → pyIsSpace c = false) →
      findG2 parenTailAny acc (n1 ++ (' ' :: '(' :: (q ++ [')'])))
        = some (acc ++ n1, q) := by
  intro n1
  induction n1 with
  | nil => intro acc hne _ _; exact absurd rfl hne
  | cons c cs ih =>
    intro acc _ hchr hlast
    rw [List.cons_append]
    simp only [findG2]
    rw [if_neg (hchr c (by simp)).2]
    by_cases hcse : cs = []
    · subst hcse
      have hdw : List.dropWhile pyIsSpace
          (([] : List Char) ++ ' ' :: '(' :: (q ++ [')']))
          = '(' :: (q ++ [')']) := by
        rw [List.nil_append, List.dropWhile_cons, if_pos (by decide),
          List.dropWhile_cons, if_neg (by decide)]
      rw [hdw, parenTailAny_exact q hq0 hqn]
    · have hgl_eq : (c :: cs).getLast? = cs.getLast? := by
        cases cs with
        | nil => exact absurd rfl hcse
        | cons c2 cs2 => exact List.getLast?_cons_cons
      have hlastcs : ∀ d, cs.getLast? = some d → pyIsSpace d = false := by
        intro d hd
        exact hlast d (by rw [hgl_eq]; exact hd)
      have hex : ∃ d ∈ cs, pyIsSpace d = false := by
        cases hgl : cs.getLast? with
        | none => exact absurd (List.getLast?_eq_none_iff.mp hgl) hcse
        | some d => exact ⟨d, mem_of_getLast?_eq cs d hgl, hlastcs d hgl⟩
      have hdw : (cs ++ (' ' :: '(' :: (q ++ [')']))).dropWhile pyIsSpace
          = cs.dropWhile pyIsSpace ++ (' ' :: '(' :: (q ++ [')'])) :=
        dropWhile_append_of_exists _ _ _ hex
      have htail : parenTailAny
          ((cs ++ (' ' :: '(' :: (q ++ [')']))).dropWhile pyIsSpace) = none := by
        rw [hdw]
        cases hdc : cs.dropWhile pyIsSpace with
        | nil =>
          exfalso
          rcases hex with ⟨d, hd, hdp⟩
          have hall : ∀ x ∈ cs, pyIsSpace x = true :=
            List.dropWhile_eq_nil_iff.mp hdc
          rw [hall d hd] at hdp
          exact absurd hdp (by decide)
        | cons d ds =>
          rw [List.cons_append]
          apply parenTailAny_ne_paren
          intro e rest' he
          injection he with he1 _
          obtain ⟨hmem, _⟩ := dropWhile_head_facts _ cs d ds hdc
          rw [← he1]
          exact (hchr d (by simp [hmem])).1
      rw [htail]
      have hrec := ih (acc ++ [c]) hcse
        (fun d hd => hchr d (by simp [hd])) hlastcs
      have hacc : (acc ++ [c]) ++ cs = acc ++ (c :: cs) := by simp
      rw [hacc] at hrec
      exact hrec

/-- The backtracking whitespace stage on a rendered line: the single
space before the name is consumed and the lazy group then succeeds. -/
theorem matchTailFrom_render (name q : PyStr)
    (hn0 : ¬ name = []) (hnchr : ∀ c ∈ name, ¬ c = '(' ∧ ¬ c = '\n')
    (hnhead : ∀ c rest, name = c :: rest → pyIsSpace c = false)
    (hnlast : ∀ c, name.getLast? = some c → pyIsSpace c = false)
    (hq0 : ¬ q = []) (hqn : ¬ '\n' ∈ q) :
    matchTailFrom parenTailAny (' ' :: (name ++ (' ' :: '(' :: (q ++ [')']))))
      = some (name, q) := by
  have hfind : findG2 parenTailAny [] (name ++ (' ' :: '(' :: (q ++ [')'])))
      = some (name, q) := by
    have := findG2_on_name q hq0 hqn name [] hn0 hnchr hnlast
    rwa [List.nil_append] at this
  have htw : ((' ' :: (name ++ (' ' :: '(' :: (q ++ [')'])))).takeWhile
      pyIsSpace).length = 1 := by
    rw [List.takeWhile_cons, if_pos (by decide)]
    cases hname : name with
    | nil => exact absurd hname hn0
    | cons nm rest' =>
      rw [List.cons_append, List.takeWhile_cons, if_neg]
      · rfl
      · rw [hnhead nm rest' hname]
        exact Bool.false_ne_true
  unfold matchTailFrom
  rw [htw]
  show (match findG2 parenTailAny []
      ((' ' :: (name ++ (' ' :: '(' :: (q ++ [')'])))).drop 1) with
    | some x => some x
    | none => matchTailGo parenTailAny
        (' ' :: (name ++ (' ' :: '(' :: (q ++ [')'])))) 0)
      = some (name, q)
  rw [show (' ' :: (name ++ (' ' :: '(' :: (q ++ [')'])))).drop 1
      = name ++ (' ' :: '(' :: (q ++ [')'])) from rfl]
  rw [hfind]

/-- The full strict pattern on a rendered line: the digit run, the
multiplication sign, the name and the parenthesized quality are
recovered exactly. -/
theorem matchStrictGen_render (digits name q : PyStr)
    (hdig : ¬ digits = []) (hdigall : ∀ c ∈ digits, pyIsDigit c = true)
    (hn0 : ¬ name = []) (hnchr : ∀ c ∈ name, ¬ c = '(' ∧ ¬ c = '\n')
    (hnhead : ∀ c rest, name = c :: rest → pyIsSpace c = false)
    (hnlast : ∀ c, name.getLast? = some c → pyIsSpace c = false)
    (hq0 : ¬ q = []) (hqn : ¬ '\n' ∈ q) :
    matchStrictGen parenTailAny
        (digits ++ (' ' :: '×' :: ' ' :: (name ++ (' ' :: '(' :: (q ++ [')'])))))
      = some (digits, name, q) := by
  obtain ⟨htk, hdw⟩ := takeWhile_dropWhile_append pyIsDigit digits ' '
    ('×' :: ' ' :: (name ++ (' ' :: '(' :: (q ++ [')'])))) hdigall (by decide)
  have hdw2 : (' ' :: '×' :: ' ' :: (name ++ (' ' :: '(' :: (q ++ [')'])))).dropWhile
      pyIsSpace = '×' :: (' ' :: (name ++ (' ' :: '(' :: (q ++ [')'])))) := by
    rw [List.dropWhile_cons, if_pos (by decide), List.dropWhile_cons,
      if_neg (by decide)]
  simp only [matchStrictGen]
  rw [htk, hdw, hdw2, if_neg hdig]
  show (if ('×' = 'x' ∨ '×' = 'X' ∨ '×' = '×') then
      match matchTailFrom parenTailAny
          (' ' :: (name ++ (' ' :: '(' :: (q ++ [')'])))) with
      | some (g2, g3) => some (digits, g2, g3)
      | none => none
    else none) = some (digits, name, q)
  rw [if_pos (Or.inr (Or.inr rfl)),
    matchTailFrom_render name q hn0 hnchr hnhead hnlast hq0 hqn]

/-- A list with a non-satisfying head is unchanged by dropWhile. -/
theorem dropWhile_eq_self_of_head (p : Char → Bool) (t : List Char)
    (h : ∀ c rest, t = c :: rest → p c = false) : t.dropWhile p = t := by
  cases t with
  | nil => rfl
  | cons c cs =>
    rw [List.dropWhile_cons, if_neg (by rw [h c cs rfl]; exact Bool.false_ne_true)]

/-- A list with a non-satisfying last element is unchanged by
dropRightWhile. -/
theorem dropRightWhile_eq_self_of_last (p : Char → Bool) (t : List Char)
    (h : ∀ c, t.getLast? = some c → p c = false) : dropRightWhile p t = t := by
  unfold dropRightWhile
  rw [dropWhile_eq_self_of_head p t.reverse (fun c rest hrev => by
    apply h
    rw [← List.head?_reverse, hrev]
    rfl)]
  exact List.reverse_reverse t

/-- A string whose head and last character are not whitespace is
unchanged by strip. -/
theorem pyStrip_eq_self_of_ends (t : PyStr)
    (hh : ∀ c rest, t = c :: rest → pyIsSpace c = false)
    (hl : ∀ c, t.getLast? = some c → pyIsSpace c = false) : pyStrip t = t := by
  unfold pyStrip
  rw [dropWhile_eq_self_of_head _ t hh]
  exact dropRightWhile_eq_self_of_last _ t hl

/-- The last element of an append with a nonempty right part. -/
theorem getLast?_append_right (a b : List Char) (x : Char)
    (h : b.getLast? = some x) : (a ++ b).getLast? = some x := by
  rw [← List.head?_reverse] at h ⊢
  rw [List.reverse_append]
  cases hb : b.reverse with
  | nil => rw [hb] at h; exact absurd h (by simp)
  | cons y ys =>
    rw [hb] at h
    rw [List.cons_append]
    exact h

/-- The rendered preview line of a record with a canonical (nonempty)
quality, written out character by character. -/
theorem formatLine_eq (n q : PyStr) (a : Int) (hq : ¬ q = []) :
    formatLine (n, q, a) = emojiFor q :: ' ' ::
      (intToStr a ++ (' ' :: '×' :: ' ' :: (n ++ (' ' :: '(' :: (q ++ [')']))))) := by
  simp only [formatLine]
  rw [if_neg hq]
  rfl

/-- The decimal rendering of a positive amount: nonempty, all digits,
value-faithful as an integer. -/
theorem intToStr_pos (a : Int) (ha : 1 ≤ a) :
    intToStr a = natToDigits a.toNat ∧ ¬ intToStr a = [] ∧
      (∀ c ∈ intToStr a, pyIsDigit c = true) ∧
      (natOfDigits (intToStr a) : Int) = a := by
  have hnn : ¬ a < 0 := by omega
  unfold intToStr
  rw [if_neg hnn]
  obtain ⟨h1, h2, h3⟩ := natToDigits_spec a.toNat
  refine ⟨rfl, h1, h2, ?_⟩
  rw [h3]
  omega

/-- No character of a rendered preview line is a segment delimiter or a
newline. -/
theorem renderLine_char_facts (n q : PyStr) (a : Int)
    (hn : goodName n) (hq : q ∈ sixTiers) (ha : 1 ≤ a) :
    ∀ c ∈ formatLine (n, q, a),
      ¬ c = ',' ∧ ¬ c = '+' ∧ ¬ c = ';' ∧ ¬ c = '\n' := by
  obtain ⟨hn1, hn2, hn3, hn4⟩ := hn
  obtain ⟨hq1, hq2, _, _, hqe1, hqe2, hqe3, hqe4, hqe5, hqe6⟩ :=
    tier_render_facts q hq
  obtain ⟨_, _, hi2, _⟩ := intToStr_pos a ha
  intro c hc
  rw [formatLine_eq n q a hq1] at hc
  rcases List.mem_cons.mp hc with rfl | hc
  · exact ⟨hqe3, hqe4, hqe5, hqe6⟩
  rcases List.mem_cons.mp hc with rfl | hc
  · exact ⟨by decide, by decide, by decide, by decide⟩
  rcases List.mem_append.mp hc with hc | hc
  · obtain ⟨_, _, _, _, _, _, _, f8, f9, f10, f11, _⟩ :=
      digit_char_facts c (hi2 c hc)
    exact ⟨f8, f9, f10, f11⟩
  rcases List.mem_cons.mp hc with rfl | hc
  · exact ⟨by decide, by decide, by decide, by decide⟩
  rcases List.mem_cons.mp hc with rfl | hc
  · exact ⟨by decide, by decide, by decide, by decide⟩
  rcases List.mem_cons.mp hc with rfl | hc
  · exact ⟨by decide, by decide, by decide, by decide⟩
  rcases List.mem_append.mp hc with hc | hc
  · obtain ⟨f1, f2, f3, _, f5⟩ := hn4 c hc
    exact ⟨f1, f2, f3, f5⟩
  rcases List.mem_cons.mp hc with rfl | hc
  · exact ⟨by decide, by decide, by decide, by decide⟩
  rcases List.mem_cons.mp hc with rfl | hc
  · exact ⟨by decide, by decide, by decide, by decide⟩
  rcases List.mem_append.mp hc with hc | hc
  · obtain ⟨_, _, f3, f4, f5, _, _, f8⟩ := hq2 c hc
    exact ⟨f3, f4, f5, f8⟩
  rcases List.mem_singleton.mp hc with rfl
  exact ⟨by decide, by decide, by decide, by decide⟩

/-- The rendered line ends in the closing parenthesis. -/
theorem renderLine_getLast (n q : PyStr) (a : Int) (hq1 : ¬ q = []) :
    (formatLine (n, q, a)).getLast? = some ')' := by
  rw [formatLine_eq n q a hq1]
  exact getLast?_append_right [emojiFor q, ' '] _ _
    (getLast?_append_right (intToStr a) _ _
      (getLast?_append_right [' ', '×', ' '] _ _
        (getLast?_append_right n _ _
          (getLast?_append_right [' ', '('] _ _
            (List.getLast?_concat q)))))

/-- A rendered preview line is unchanged by strip. -/
theorem renderLine_strip (n q : PyStr) (a : Int) (hq : q ∈ sixTiers) :
    pyStrip (formatLine (n, q, a)) = formatLine (n, q, a) := by
  obtain ⟨hq1, _, _, _, hqe1, _⟩ := tier_render_facts q hq
  apply pyStrip_eq_self_of_ends
  · intro c rest hc
    rw [formatLine_eq n q a hq1] at hc
    injection hc with h1 _
    rw [← h1]
    exact hqe1
  · intro c hc
    rw [renderLine_getLast n q a hq1] at hc
    injection hc with h1
    rw [← h1]
    decide

/-- Dropping leading non-word characters from a rendered line removes
exactly the emoji and the following space. -/
theorem renderLine_dropWord (n q : PyStr) (a : Int) (hq : q ∈ sixTiers)
    (ha : 1 ≤ a) :
    (formatLine (n, q, a)).dropWhile notWordChar
      = intToStr a ++ (' ' :: '×' :: ' ' :: (n ++ (' ' :: '(' :: (q ++ [')'])))) := by
  obtain ⟨hq1, _, _, _, _, hqe2, _⟩ := tier_render_facts q hq
  obtain ⟨_, hi1, hi2, _⟩ := intToStr_pos a ha
  rw [formatLine_eq n q a hq1]
  rw [List.dropWhile_cons, if_pos (by simp [notWordChar, hqe2]),
    List.dropWhile_cons, if_pos (by decide)]
  cases hD : intToStr a with
  | nil => exact absurd hD hi1
  | cons d ds =>
    have hnw : notWordChar d = false := by
      have := digit_char_facts d (hi2 d (by rw [hD]; simp))
      simp [notWordChar, this.2.2.1]
    rw [List.cons_append, List.dropWhile_cons,
      if_neg (by rw [hnw]; exact Bool.false_ne_true)]

/-- One rendered preview line of a canonical record parses back to
exactly that record under the lenient grammar. -/
theorem parseLineU_render (n q : PyStr) (a : Int)
    (hgn : goodName n) (hq : q ∈ sixTiers) (ha : 1 ≤ a) :
    parseLineU (formatLine (n, q, a)) = [(n, q, a)] := by
  obtain ⟨hn1, hn2, hn3, hn4⟩ := hgn
  obtain ⟨hq1, hq2, hqf, hqpq, hqe1, hqe2, hqe3, hqe4, hqe5, hqe6⟩ :=
    tier_render_facts q hq
  obtain ⟨hiEq, hi1, hi2, hi3⟩ := intToStr_pos a ha
  have hstrip := renderLine_strip n q a hq
  have hchars := renderLine_char_facts n q a ⟨hn1, hn2, hn3, hn4⟩ hq ha
  have hends := strip_eq_self_ends n hn2
  have hqnl : ¬ '\n' ∈ q := fun hm => (hq2 '\n' hm).2.2.2.2.2.2.2 rfl
  have hsplit : splitDelims (formatLine (n, q, a)) = [formatLine (n, q, a)] := by
    unfold splitDelims
    exact splitOnP_eq_single _ _ (fun c hc => by
      obtain ⟨f1, f2, f3, _⟩ := hchars c hc
      simp [f1, f2, f3])
  unfold parseLineU
  rw [hstrip, hsplit]
  show parseSegment (formatLine (n, q, a)) ++ parseSegments [] = [(n, q, a)]
  rw [show parseSegments [] = ([] : List ItemT) from rfl, List.append_nil]
  simp only [parseSegment]
  rw [hstrip]
  rw [if_neg (by rw [formatLine_eq n q a hq1]; simp)]
  rw [renderLine_dropWord n q a hq ha]
  rw [matchStrictGen_render (intToStr a) n q hi1 hi2 hn1
    (fun c hc => ⟨(hn4 c hc).2.2.2.1, (hn4 c hc).2.2.2.2⟩)
    hends.1 hends.2 hq1 hqnl]
  simp only [parseSegMatch]
  rw [hn2, hn3, hqf, hqpq, hi3]

/-- Splitting a newline-joined list of newline-free lines recovers the
lines. -/
theorem splitLinesNl_intercalate (ls : List PyStr) (hne : ¬ ls = [])
    (h : ∀ l ∈ ls, ∀ c ∈ l, ¬ c = '\n') :
    splitLinesNl (List.intercalate ['\n'] ls) = ls := by
  induction ls with
  | nil => exact absurd rfl hne
  | cons l ls ih =>
    cases ls with
    | nil =>
      rw [show List.intercalate ['\n'] [l] = l from by simp [List.intercalate]]
      unfold splitLinesNl
      exact splitOnP_eq_single _ l (fun c hc => by simp [h l (by simp) c hc])
    | cons l2 t =>
      have hstep : List.intercalate ['\n'] (l :: l2 :: t)
          = l ++ '\n' :: List.intercalate ['\n'] (l2 :: t) := rfl
      unfold splitLinesNl at ih ⊢
      rw [hstep, splitOnP_append_cons _ l '\n' _
        (fun c hc => by simp [h l (by simp) c hc]) (by decide)]
      rw [ih (by simp) (fun l' hl' c hc => h l' (by simp [hl']) c hc)]

/-- Parsing the rendered lines of a list of canonical records recovers
the records. -/
theorem parse_user_lines_map_render (its : List ItemT)
    (h : ∀ x ∈ its, goodName x.1 ∧ x.2.1 ∈ sixTiers ∧ 1 ≤ x.2.2) :
    parse_user_lines (its.map formatLine) = its := by
  induction its with
  | nil => rfl
  | cons y ys ih =>
    obtain ⟨n, q, a⟩ := y
    obtain ⟨hy1, hy2, hy3⟩ := h (n, q, a) (by simp)
    show parseLineU (formatLine (n, q, a)) ++ parse_user_lines (ys.map formatLine)
      = (n, q, a) :: ys
    rw [ih (fun x hx => h x (by simp [hx])), parseLineU_render n q a hy1 hy2 hy3]
    rfl

/-- Claim C5, amended: rendering a list of canonical records with the
standard preview renderer and re-parsing the rendered lines with the
lenient grammar reproduces the identical list, provided each record has
one of the six tier names as its quality, an amount of at least 1, and a
name that is nonempty, whitespace-trimmed, a title-casing fixed point,
and free of comma, plus, semicolon, opening parenthesis and newline. -/
theorem C5_roundtrip (items : List ItemT)
    (h : ∀ x ∈ items, goodName x.1 ∧ x.2.1 ∈ sixTiers ∧ 1 ≤ x.2.2) :
    parse_user_lines (splitLinesNl (format_preview items)) = items := by
  cases items with
  | nil => rfl
  | cons x its' =>
    have hlines : splitLinesNl (format_preview (x :: its'))
        = (x :: its').map formatLine := by
      unfold format_preview
      apply splitLinesNl_intercalate
      · simp
      · intro l hl c hc
        rcases List.mem_map.mp hl with ⟨y, hy, rfl⟩
        obtain ⟨n, q, a⟩ := y
        obtain ⟨hy1, hy2, hy3⟩ := h (n, q, a) hy
        exact (renderLine_char_facts n q a hy1 hy2 hy3 c hc).2.2.2
    rw [hlines]
    exact parse_user_lines_map_render _ h

/-- Witness for the amended claim C5 at a one-record list. -/
theorem C5_witness :
    (∀ x ∈ [((s ("Oak Wood")), s ("Epic"), (5 : Int))],
        goodName x.1 ∧ x.2.1 ∈ sixTiers ∧ 1 ≤ x.2.2) ∧
      parse_user_lines (splitLinesNl
          (format_preview [(s ("Oak Wood"), s ("Epic"), 5)]))
        = [(s ("Oak Wood"), s ("Epic"), 5)] :=
  ⟨by decide, C5_roundtrip _ (by decide)⟩

end GuildBank
